import Mathlib

/-!
Verification development for the URLs-LE extraction engine.

Shallow embedding of the extraction-and-classification core:
  * `src/src/utils/urlValidation.ts` — the token classifier
    (`detectUrlProtocol`, `isValidUrl`, `extractUrlComponents`,
    `getDomainFromUrl`), which delegates URL parsing to the platform's
    `new URL`; the parser itself is modelled after the WHATWG URL
    Standard's scheme/host handling (see `parseUrlM`).
  * the format scanners `extractFromYaml` (src/src/extraction/formats/yaml.ts),
    `extractFromMarkdown` (src/src/extraction/formats/markdown.ts) and
    `extractFromHtml` (the html scanner embedded in
    src/src/extraction/collect.test.ts).
  * the dispatcher `extractUrls` (src/docs/ARCHITECTURE.md, the extract.ts
    listing), modelled as `extractUrlsWith`, parametric in the selected
    scanner so that theorems quantify over every scanner outcome.
  * the post-processing utilities `deduplicateUrls` and `sortUrls`
    (collect.ts, embedded in src/src/extraction/collect.test.ts).

Modelling conventions:
  * JavaScript strings are modelled as `String` / `List Char`; indices are
    character counts (the sources only feed ASCII to the index-sensitive
    paths, where UTF-16 units and characters agree).
  * JavaScript regular expressions used by the scanners are all of a few
    fixed shapes (a literal prefix followed by a greedy negated character
    class, or bracket-delimited groups); each is implemented directly as a
    fuel-based scanner with the exec/lastIndex semantics of the source.
  * exceptions are modelled with `Except` (dispatcher level) or an explicit
    per-line oracle (scanner level); `console.warn` output is modelled as
    an explicit log so that the error-reporting claims are statable.
  * `Date.now()` timestamps on ParseError records are omitted (environment
    clock, no claim mentions them).
-/

namespace UrlsLe

/-! ## Character and string helpers -/

/-- Whitespace as JavaScript's regex class sees it: the ASCII whitespace
characters plus no-break space and the byte-order mark.  (The remaining
Unicode space separators of the JS class are not modelled; no claim
depends on them.) -/
def jsIsSpace (c : Char) : Bool :=
  c == ' ' || c == Char.ofNat 9 || c == Char.ofNat 10 || c == Char.ofNat 13 ||
  c == Char.ofNat 11 || c == Char.ofNat 12 || c == Char.ofNat 160 || c == Char.ofNat 65279

/-- The negated character class shared by every URL pattern of the scanners:
a URL token continues while the character is not whitespace and not one of
the terminators (the class in the sources reads, with escapes resolved:
space, <, >, double quote, left brace, right brace, vertical bar,
backslash, caret, backtick, [, ], ;, right paren, apostrophe). -/
def urlStopChar (c : Char) : Bool :=
  jsIsSpace c || c == '<' || c == '>' || c == '"' || c == Char.ofNat 123 ||
  c == Char.ofNat 125 || c == '|' || c == '\\' || c == '^' || c == Char.ofNat 96 ||
  c == '[' || c == ']' || c == ';' || c == ')' || c == Char.ofNat 39

/-- String.prototype.trim of the sources (used for line contexts and fence
detection), over the character list. -/
def trimJs (cs : List Char) : List Char :=
  ((cs.dropWhile jsIsSpace).reverse.dropWhile jsIsSpace).reverse

/-- content.split of the sources with separator a newline: every scanner
walks the document line by line. -/
def splitLines : List Char → List (List Char)
  | [] => [[]]
  | c :: cs =>
    let r := splitLines cs
    if c == Char.ofNat 10 then [] :: r
    else
      match r with
      | [] => [[c]]
      | h :: t => (c :: h) :: t

/-- Bridge from the character-list world back to `String` (the token values
and messages of the model). -/
def strOf (cs : List Char) : String := String.mk cs

/-- Does the pattern occur in `cs` starting at index `i`? -/
def occursAt (pat cs : List Char) (i : Nat) : Bool :=
  pat.isPrefixOf (cs.drop i)

/-- String.prototype.lastIndexOf: the greatest index at which the pattern
occurs, if any. -/
def lastOccIdx (pat cs : List Char) : Option Nat :=
  (((List.range (cs.length + 1)).filter (occursAt pat cs))).getLast?

/-! ## Data model (src/src/types.ts) -/

/-- UrlProtocol of types.ts: the closed set of schemes. -/
inductive UrlProtocol where
  | http | https | ftp | file | mailto | tel | unknown
deriving DecidableEq, Repr

/-- Source position, 1-based, as the scanners record it. -/
structure Position where
  line : Nat
  column : Nat
deriving DecidableEq, Repr

/-- Url of types.ts.  `value` and `protocol` are required; the rest are the
optional fields the scanners fill in. -/
structure Url where
  value : String
  protocol : UrlProtocol
  type : Option String := none
  domain : Option String := none
  path : Option String := none
  position : Option Position := none
  context : Option String := none
deriving DecidableEq, Repr

/-- ErrorSeverity of types.ts. -/
inductive ErrorSeverity where
  | info | warning | error | critical
deriving DecidableEq, Repr

/-- RecoveryAction of types.ts. -/
inductive RecoveryAction where
  | retry | fallback | userAction | skip | abort | truncate
deriving DecidableEq, Repr

/-- ParseError of types.ts (category is the literal "parsing" everywhere in
the engine; the Date.now() timestamp is omitted). -/
structure ParseError where
  category : String
  severity : ErrorSeverity
  message : String
  recoverable : Bool
  recoveryAction : RecoveryAction
deriving DecidableEq, Repr

/-- FileType of types.ts, restricted to the tags the dispatcher's switch
mentions. -/
inductive FileType where
  | markdown | html | css | javascript | typescript | json | yaml
  | properties | toml | ini | xml | unknown
deriving DecidableEq, Repr

/-- ExtractionResult of types.ts. -/
structure ExtractionResult where
  success : Bool
  urls : List Url
  errors : List ParseError
  fileType : FileType
deriving DecidableEq, Repr

/-! ## The URL parser used via `new URL`

`parseUrl` in urlValidation.ts wraps the platform's `new URL(url)` in a
try/catch.  The model below follows the WHATWG URL Standard's basic parser
restricted to what the classifier consumes: scheme recognition, the
special-scheme authority/host rules (including failure on an empty or
forbidden host and an out-of-range or non-numeric port), and opaque paths
for non-special schemes.  Percent-decoding of hosts, IDNA and path
normalization are not modelled; no claim depends on them. -/

structure ParsedUrl where
  protocol : String
  hostname : String
  pathname : String
  search : String
  fragment : String
deriving DecidableEq, Repr

/-- Leading and trailing C0-control-or-space stripping, then removal of all
tabs and newlines, as the URL parser's input preparation does. -/
def urlPrepInput (cs : List Char) : List Char :=
  (((cs.dropWhile (fun c => c.toNat ≤ 32)).reverse.dropWhile
      (fun c => c.toNat ≤ 32)).reverse).filter
    (fun c => !(c == Char.ofNat 9 || c == Char.ofNat 10 || c == Char.ofNat 13))

/-- Characters allowed after the first one of a URL scheme. -/
def schemeCharOk (c : Char) : Bool :=
  c.isAlphanum || c == '+' || c == '-' || c == '.'

/-- Split off a valid scheme (lowercased, without the colon) and the
remainder after the colon; none when the input has no valid scheme. -/
def parseSchemeSplit (cs : List Char) : Option (List Char × List Char) :=
  match cs with
  | [] => none
  | c :: rest =>
    if c.isAlpha then
      let body := rest.takeWhile schemeCharOk
      match rest.drop body.length with
      | ':' :: tail => some ((c :: body).map Char.toLower, tail)
      | _ => none
    else none

/-- The special schemes of the URL Standard. -/
def specialScheme (s : List Char) : Bool :=
  s == ("http").data || s == ("https").data || s == ("ws").data ||
  s == ("wss").data || s == ("ftp").data || s == ("file").data

/-- Forbidden domain code points (C0 controls, U+007F, and the forbidden
host punctuation, including the percent sign). -/
def forbiddenDomainChar (c : Char) : Bool :=
  c.toNat < 32 || c.toNat == 127 || c == ' ' || c == '#' || c == '/' ||
  c == ':' || c == '<' || c == '>' || c == '?' || c == '@' || c == '[' ||
  c == '\\' || c == ']' || c == '^' || c == '|' || c == '%'

/-- A character that ends the authority component. -/
def hostEndChar (c : Char) : Bool :=
  c == '/' || c == '\\' || c == '?' || c == '#'

/-- The part of the authority after the last commercial at (userinfo is
dropped; the host is what follows the last at sign). -/
def afterLastAt (cs : List Char) : List Char :=
  (cs.splitOn '@').getLastD cs

def digitsToNat (ds : List Char) : Nat :=
  ds.foldl (fun n c => n * 10 + (c.toNat - 48)) 0

/-- A port string is acceptable when it is all digits and in range (an empty
port is allowed and ignored). -/
def portOk (p : List Char) : Bool :=
  p.all Char.isDigit && (p.isEmpty || digitsToNat p ≤ 65535)

/-- Parse the host-and-port slice of a special URL's authority: the
lowercased hostname, or none when the URL parser would throw.  Bracketed
(IPv6) hosts are kept verbatim inside their brackets. -/
def parseHostPort (hp : List Char) : Option (List Char) :=
  match hp with
  | '[' :: rest =>
    let inside := rest.takeWhile (fun c => !(c == ']'))
    (match rest.drop inside.length with
     | ']' :: tail =>
       (match tail with
        | [] => some ('[' :: (inside ++ [']']))
        | ':' :: p => if portOk p then some ('[' :: (inside ++ [']'])) else none
        | _ => none)
     | _ => none)
  | _ =>
    let host := hp.takeWhile (fun c => !(c == ':'))
    if host.isEmpty then none
    else if host.any forbiddenDomainChar then none
    else
      (match hp.drop host.length with
       | [] => some (host.map Char.toLower)
       | ':' :: p => if portOk p then some (host.map Char.toLower) else none
       | _ => none)

/-- Split a path-query-fragment tail into the three serialized components
(`search` keeps its question mark and `fragment` its hash sign when the
component is present and non-empty, matching the URL object's accessors
closely enough for the engine, which only concatenates them). -/
def splitPathQueryFragment (tail : List Char) : List Char × List Char × List Char :=
  let path := tail.takeWhile (fun c => !(c == '?' || c == '#'))
  let rest := tail.drop path.length
  let search := rest.takeWhile (fun c => !(c == '#'))
  let frag := rest.drop search.length
  (path, (if search.length ≤ 1 then [] else search), (if frag.length ≤ 1 then [] else frag))

/-- Serialize a special URL's path: backslashes count as slashes and the
path always begins with a slash (dot-segment and percent normalization are
not modelled). -/
def specialPathOf (path : List Char) : List Char :=
  let p := path.map (fun c => if c == '\\' then '/' else c)
  match p with
  | '/' :: _ => p
  | _ => '/' :: p

/-- The model of `new URL(url)`: some parsed record, or none exactly when
the platform parser throws. -/
def parseUrlM (s : String) : Option ParsedUrl :=
  let cs := urlPrepInput s.data
  match parseSchemeSplit cs with
  | none => none
  | some (scheme, rest) =>
    if scheme == ("file").data then
      -- file URLs: an authority is read only after exactly two slashes and
      -- may be empty; localhost serializes as the empty host.
      (match rest with
       | '/' :: '/' :: r2 =>
         let auth := r2.takeWhile (fun c => !(hostEndChar c))
         let tail := r2.drop auth.length
         if auth.any forbiddenDomainChar then none
         else
           let h := if auth == ("localhost").data then [] else auth.map Char.toLower
           let pqf := splitPathQueryFragment tail
           some { protocol := strOf (scheme ++ [':']), hostname := strOf h,
                  pathname := strOf (specialPathOf pqf.1),
                  search := strOf pqf.2.1, fragment := strOf pqf.2.2 }
       | _ =>
         let pqf := splitPathQueryFragment rest
         some { protocol := strOf (scheme ++ [':']), hostname := "",
                pathname := strOf (specialPathOf pqf.1),
                search := strOf pqf.2.1, fragment := strOf pqf.2.2 })
    else if specialScheme scheme then
      -- special non-file schemes: skip every slash and backslash, then read
      -- the authority; an empty or invalid host is a parse failure.
      let r1 := rest.dropWhile (fun c => c == '/' || c == '\\')
      let auth := r1.takeWhile (fun c => !(hostEndChar c))
      let tail := r1.drop auth.length
      (match parseHostPort (afterLastAt auth) with
       | none => none
       | some h =>
         let pqf := splitPathQueryFragment tail
         some { protocol := strOf (scheme ++ [':']), hostname := strOf h,
                pathname := strOf (specialPathOf pqf.1),
                search := strOf pqf.2.1, fragment := strOf pqf.2.2 })
    else
      -- non-special schemes: opaque path, never a parse failure.
      let pqf := splitPathQueryFragment rest
      some { protocol := strOf (scheme ++ [':']), hostname := "",
             pathname := strOf pqf.1,
             search := strOf pqf.2.1, fragment := strOf pqf.2.2 }

/-! ## The token classifier (src/src/utils/urlValidation.ts) -/

def SUPPORTED_PROTOCOLS : List String :=
  [("http:"), ("https:"), ("ftp:"), ("file:"), ("mailto:"), ("tel:")]

def WEB_PROTOCOLS : List String := [("http:"), ("https:"), ("ftp:")]

def isSupportedProtocol (p : String) : Bool :=
  SUPPORTED_PROTOCOLS.contains p

def isValidMailto (pathname : String) : Bool :=
  pathname.data.any (fun c => c == '@') && 1 < pathname.data.length

def isValidTel (pathname : String) : Bool :=
  1 < pathname.data.length

def isValidWebUrl (hostname : String) : Bool :=
  0 < hostname.data.length

def isValidFileUrl (pathname : String) : Bool :=
  1 < pathname.data.length

def validateByProtocol (u : ParsedUrl) : Bool :=
  if u.protocol == ("mailto:") then isValidMailto u.pathname
  else if u.protocol == ("tel:") then isValidTel u.pathname
  else if u.protocol == ("http:") || u.protocol == ("https:") || u.protocol == ("ftp:") then
    isValidWebUrl u.hostname
  else if u.protocol == ("file:") then isValidFileUrl u.pathname
  else false

def isValidUrl (url : String) : Bool :=
  match parseUrlM url with
  | none => false
  | some u => isSupportedProtocol u.protocol && validateByProtocol u

def mapProtocolToType (protocol : String) : UrlProtocol :=
  if protocol == ("http:") then .http
  else if protocol == ("https:") then .https
  else if protocol == ("ftp:") then .ftp
  else if protocol == ("file:") then .file
  else if protocol == ("mailto:") then .mailto
  else if protocol == ("tel:") then .tel
  else .unknown

def detectUrlProtocol (url : String) : UrlProtocol :=
  match parseUrlM url with
  | none => .unknown
  | some u => mapProtocolToType u.protocol

/-- extractUrlComponents of urlValidation.ts: protocol classification plus
hostname and the concatenated path-search-fragment. -/
def extractUrlComponents (url : String) : Option (UrlProtocol × String × String) :=
  match parseUrlM url with
  | none => none
  | some u => some (mapProtocolToType u.protocol, u.hostname, u.pathname ++ u.search ++ u.fragment)

def getDomainFromUrl (url : String) : Option String :=
  match parseUrlM url with
  | none => none
  | some u =>
    if WEB_PROTOCOLS.contains u.protocol then
      (if u.hostname == ("") then none else some u.hostname)
    else none

/-! ## Regex scanning

Every URL pattern of the scanners has the shape: a literal prefix (or one
of two, for the https?-alternation) followed by a greedy, non-empty run of
characters outside `urlStopChar`.  `scanPrefixedF` implements the
exec/lastIndex loop of the sources: find the leftmost match at or after
the current position, emit (match index, matched text), continue after the
match.  `fuel` is a termination device; `length + 1` always suffices since
every step strictly shortens the remaining input. -/

def matchFirstPrefix (ps : List (List Char)) (cs : List Char) : Option (List Char) :=
  ps.find? (fun p => p.isPrefixOf cs)

def scanPrefixedF (ps : List (List Char)) : Nat → List Char → Nat → List (Nat × List Char)
  | 0, _, _ => []
  | _ + 1, [], _ => []
  | fuel + 1, c :: cs, i =>
    match matchFirstPrefix ps (c :: cs) with
    | some p =>
      let rest := (c :: cs).drop p.length
      let run := rest.takeWhile (fun ch => !(urlStopChar ch))
      if run.isEmpty then scanPrefixedF ps fuel cs (i + 1)
      else (i, p ++ run) :: scanPrefixedF ps fuel (rest.drop run.length) (i + p.length + run.length)
    | none => scanPrefixedF ps fuel cs (i + 1)

def scanPrefixed (ps : List (List Char)) (cs : List Char) : List (Nat × List Char) :=
  scanPrefixedF ps (cs.length + 1) cs 0

/-- MARKDOWN_AUTOLINK_PATTERN: an angle bracket, a non-empty run of
non-closing characters, a closing angle bracket.  Yields (index of the
opening bracket, the group). -/
def autolinkF : Nat → List Char → Nat → List (Nat × List Char)
  | 0, _, _ => []
  | _ + 1, [], _ => []
  | fuel + 1, c :: cs, i =>
    if c == '<' then
      let run := cs.takeWhile (fun ch => !(ch == '>'))
      (match cs.drop run.length with
       | '>' :: rest2 =>
         if run.isEmpty then autolinkF fuel cs (i + 1)
         else (i, run) :: autolinkF fuel rest2 (i + run.length + 2)
       | _ => autolinkF fuel cs (i + 1))
    else autolinkF fuel cs (i + 1)

def autolinks (cs : List Char) : List (Nat × List Char) :=
  autolinkF (cs.length + 1) cs 0

/-- MARKDOWN_LINK_PATTERN: bracketed non-empty label, parenthesized
non-empty target.  Yields (index of the opening square bracket, the
target group). -/
def linkTargetsF : Nat → List Char → Nat → List (Nat × List Char)
  | 0, _, _ => []
  | _ + 1, [], _ => []
  | fuel + 1, c :: cs, i =>
    if c == '[' then
      let label := cs.takeWhile (fun ch => !(ch == ']'))
      (match cs.drop label.length with
       | ']' :: '(' :: cs2 =>
         let target := cs2.takeWhile (fun ch => !(ch == ')'))
         (match cs2.drop target.length with
          | ')' :: rest2 =>
            if label.isEmpty || target.isEmpty then linkTargetsF fuel cs (i + 1)
            else (i, target) ::
              linkTargetsF fuel rest2 (i + label.length + target.length + 4)
          | _ => linkTargetsF fuel cs (i + 1))
       | _ => linkTargetsF fuel cs (i + 1))
    else linkTargetsF fuel cs (i + 1)

def linkTargets (cs : List Char) : List (Nat × List Char) :=
  linkTargetsF (cs.length + 1) cs 0

/-- Case-insensitive literal prefix match (the i flag of the attribute
patterns). -/
def ciPrefix (p cs : List Char) : Bool :=
  (p.map Char.toLower).isPrefixOf (cs.map Char.toLower)

/-- A quote character of the attribute patterns (double quote or
apostrophe). -/
def quoteChar (c : Char) : Bool :=
  c == '"' || c == Char.ofNat 39

/-- The HREF/SRC/ACTION patterns of the html scanner: the attribute name
(case-insensitive), optional whitespace, an equals sign, optional
whitespace, a quote, a non-empty run of non-quote characters, a quote
(either kind closes).  Yields (index of the attribute name, the quoted
group). -/
def attrF (name : List Char) : Nat → List Char → Nat → List (Nat × List Char)
  | 0, _, _ => []
  | _ + 1, [], _ => []
  | fuel + 1, c :: cs, i =>
    if ciPrefix name (c :: cs) then
      let rest0 := (c :: cs).drop name.length
      let ws1 := rest0.takeWhile jsIsSpace
      (match rest0.drop ws1.length with
       | '=' :: rest2 =>
         let ws2 := rest2.takeWhile jsIsSpace
         (match rest2.drop ws2.length with
          | q :: rest3 =>
            if quoteChar q then
              let run := rest3.takeWhile (fun ch => !(quoteChar ch))
              (match rest3.drop run.length with
               | q2 :: rest4 =>
                 if quoteChar q2 && !(run.isEmpty) then
                   (i, run) :: attrF name fuel rest4
                     (i + name.length + ws1.length + 1 + ws2.length + 1 + run.length + 1)
                 else attrF name fuel cs (i + 1)
               | [] => attrF name fuel cs (i + 1))
            else attrF name fuel cs (i + 1)
          | [] => attrF name fuel cs (i + 1))
       | _ => attrF name fuel cs (i + 1))
    else attrF name fuel cs (i + 1)

def attrMatches (name : List Char) (cs : List Char) : List (Nat × List Char) :=
  attrF name (cs.length + 1) cs 0

/-! ## The YAML scanner (src/src/extraction/formats/yaml.ts)

Line-oriented: for every line, the five patterns run in the order URL
(http and https share one pattern and the pushed protocol label is the
literal https), FTP, MAILTO, TEL, FILE.  No per-scan seen-set and no
classifier call: the protocol is the literal associated with the pattern.
The per-line try/catch only guards regex execution, which is total here,
and records nothing; it is modelled as absent. -/

def yamlPats : List (UrlProtocol × List (List Char)) :=
  [ (.https, [("https://").data, ("http://").data]),
    (.ftp, [("ftp://").data]),
    (.mailto, [("mailto:").data]),
    (.tel, [("tel:").data]),
    (.file, [("file://").data]) ]

def yamlLine (line : List Char) (lineIndex : Nat) : List Url :=
  yamlPats.flatMap (fun pp =>
    (scanPrefixed pp.2 line).map (fun m =>
      { value := strOf m.2, protocol := pp.1,
        position := some ⟨lineIndex + 1, m.1 + 1⟩,
        context := some (strOf (trimJs line)) }))

def extractFromYaml (content : String) : List Url :=
  (splitLines content.data).enum.flatMap (fun p => yamlLine p.2 p.1)

/-! ## Shared token construction (createUrl of markdown.ts and of the html
scanner): classifier-backed protocol, optional domain and path from
extractUrlComponents (kept only when non-empty, matching the truthiness
spread in the sources). -/

def createUrlC (v : List Char) (line : List Char) (lineIndex colIndex : Nat) : Url :=
  { value := strOf v
    protocol := detectUrlProtocol (strOf v)
    domain :=
      match extractUrlComponents (strOf v) with
      | some c => if c.2.1 == ("") then none else some c.2.1
      | none => none
    path :=
      match extractUrlComponents (strOf v) with
      | some c => if c.2.2 == ("") then none else some c.2.2
      | none => none
    position := some ⟨lineIndex + 1, colIndex + 1⟩
    context := some (strOf (trimJs line)) }

/-- addUrlIfNew of markdown.ts and the html scanner: the per-scan seen-set
keyed by the exact token value; a fresh value appends the created token. -/
def addUrlIfNew (line : List Char) (lineIndex : Nat)
    (st : List String × List Url) (cand : Nat × List Char) : List String × List Url :=
  let v := strOf cand.2
  if st.1.contains v then st
  else (v :: st.1, st.2 ++ [createUrlC cand.2 line lineIndex cand.1])

/-! ## The Markdown scanner (src/src/extraction/formats/markdown.ts) -/

/-- isInInlineCode: an odd number of backticks strictly before the match
start suppresses the match. -/
def isInInlineCode (line : List Char) (idx : Nat) : Bool :=
  ((line.take idx).filter (fun c => c == Char.ofNat 96)).length % 2 == 1

/-- updateCodeBlockState: a line whose trimmed form starts with three
backticks toggles the fenced-code state. -/
def updateCodeBlockState (line : List Char) (st : Bool) : Bool :=
  if (strOf [Char.ofNat 96, Char.ofNat 96, Char.ofNat 96]).data.isPrefixOf (trimJs line)
  then !st else st

def mdPlainPats : List (Bool × List (List Char)) :=
  [ (true, [("https://").data, ("http://").data]),
    (false, [("ftp://").data]),
    (false, [("mailto:").data]),
    (false, [("tel:").data]),
    (false, [("file://").data]) ]

/-- The candidates one Markdown line contributes, in the source's pass
order (link targets, autolinks, then the plain patterns), each filtered by
its validation and inline-code checks.  The filters are state-independent,
so the per-line processing is this list folded through addUrlIfNew. -/
def mdLineCands (line : List Char) : List (Nat × List Char) :=
  ((linkTargets line).filter (fun m =>
      isValidUrl (strOf m.2) && !(isInInlineCode line m.1)))
  ++ ((autolinks line).filter (fun m =>
      isValidUrl (strOf m.2) && !(isInInlineCode line m.1)))
  ++ (mdPlainPats.flatMap (fun pp =>
      (scanPrefixed pp.2 line).filter (fun m =>
        !(isInInlineCode line m.1) && (!pp.1 || isValidUrl (strOf m.2)))))

structure MdState where
  inCodeBlock : Bool
  seen : List String
  urls : List Url
  log : List String
deriving Repr

/-- The console.warn text of logExtractionError. -/
def mdWarnMsg (n : Nat) : String :=
  ("[URLs-LE] Regex error on line ") ++ toString n ++ (":")

/-- One line of extractFromMarkdown, with `throws` an oracle telling which
line indices raise inside the per-line try block (modelled as raising at
the start of the line's processing).  A suppressed (fenced) line is
skipped before the try block; a throwing line contributes no tokens and
one console warning; otherwise the line's candidates run through
addUrlIfNew. -/
def mdStep (throws : Nat → Bool) (st : MdState) (p : Nat × List Char) : MdState :=
  let inCB := updateCodeBlockState p.2 st.inCodeBlock
  if inCB then { st with inCodeBlock := inCB }
  else if throws p.1 then
    { st with inCodeBlock := inCB, log := st.log ++ [mdWarnMsg (p.1 + 1)] }
  else
    let r := (mdLineCands p.2).foldl (addUrlIfNew p.2 p.1) (st.seen, st.urls)
    { inCodeBlock := inCB, seen := r.1, urls := r.2, log := st.log }

def mdScan (throws : Nat → Bool) (content : String) : MdState :=
  (splitLines content.data).enum.foldl (mdStep throws) ⟨false, [], [], []⟩

def extractFromMarkdownT (throws : Nat → Bool) (content : String) : List Url × List String :=
  ((mdScan throws content).urls, (mdScan throws content).log)

/-- extractFromMarkdown: the scanner itself (the per-line regex work never
actually throws, so the oracle is constantly false). -/
def extractFromMarkdown (content : String) : List Url :=
  (extractFromMarkdownT (fun _ => false) content).1

/-! ## The HTML scanner (embedded in src/src/extraction/collect.test.ts) -/

/-- isInComment: within the current line, the match start is suppressed
when the last comment opener before it is more recent than the last
closer.  No state is carried across lines. -/
def isInComment (line : List Char) (idx : Nat) : Bool :=
  let before := line.take idx
  match lastOccIdx ("<!--").data before, lastOccIdx ("-->").data before with
  | none, _ => false
  | some _, none => true
  | some a, some b => b < a

/-- The candidates one html line contributes: the href, src and action
attribute patterns (classifier-validated), then the plain patterns
(comment-checked only). -/
def htmlLineCands (line : List Char) : List (Nat × List Char) :=
  ((attrMatches ("href").data line).filter (fun m =>
      !(isInComment line m.1) && isValidUrl (strOf m.2)))
  ++ ((attrMatches ("src").data line).filter (fun m =>
      !(isInComment line m.1) && isValidUrl (strOf m.2)))
  ++ ((attrMatches ("action").data line).filter (fun m =>
      !(isInComment line m.1) && isValidUrl (strOf m.2)))
  ++ (mdPlainPats.flatMap (fun pp =>
      (scanPrefixed pp.2 line).filter (fun m => !(isInComment line m.1))))

def extractFromHtml (content : String) : List Url :=
  ((splitLines content.data).enum.foldl
    (fun st p => (htmlLineCands p.2).foldl (addUrlIfNew p.2 p.1) st)
    (([] : List String), ([] : List Url))).2

/-! ## The dispatcher (extract.ts, listed in src/docs/ARCHITECTURE.md)

`extractUrls` selects a scanner from the resolved file type and guards it
with the two fixed ceilings.  The model `extractUrlsWith` takes the
selected scanner as a parameter (`scan`), so every theorem about it
quantifies over all scanners and scanner outcomes; a scanner exception is
the `Except.error` case, carrying the message of the thrown Error.  The
cancellation token is modelled as the boolean it is queried for. -/

def MAX_CONTENT_SIZE : Nat := 10000000

def MAX_URL_COUNT : Nat := 50000

def determineFileType (languageId : String) : FileType :=
  if languageId == ("markdown") then .markdown
  else if languageId == ("html") then .html
  else if languageId == ("css") then .css
  else if languageId == ("javascript") then .javascript
  else if languageId == ("typescript") then .typescript
  else if languageId == ("json") then .json
  else if languageId == ("yaml") then .yaml
  else if languageId == ("yml") then .yaml
  else if languageId == ("properties") then .properties
  else if languageId == ("toml") then .toml
  else if languageId == ("ini") then .ini
  else if languageId == ("xml") then .xml
  else .unknown

def createEmptyResult (fileType : FileType) : ExtractionResult :=
  { success := false, urls := [], errors := [], fileType := fileType }

def sizeErrorMessage (n : Nat) : String :=
  ("Content too large (") ++ toString n ++ (" characters), maximum size is 10MB")

def createErrorResult (fileType : FileType) (message : String) : ExtractionResult :=
  { success := false, urls := [],
    errors := [⟨("parsing"), .warning, message, true, .truncate⟩],
    fileType := fileType }

def truncMessage (originalCount : Nat) : String :=
  ("URL count (") ++ toString originalCount ++ (") exceeds limit (") ++
    toString MAX_URL_COUNT ++ ("), truncated results")

def createTruncatedResult (urls : List Url) (fileType : FileType)
    (originalCount : Nat) : ExtractionResult :=
  { success := true, urls := urls.take MAX_URL_COUNT,
    errors := [⟨("parsing"), .warning, truncMessage originalCount, true, .truncate⟩],
    fileType := fileType }

def createSuccessResult (urls : List Url) (errors : List ParseError)
    (fileType : FileType) : ExtractionResult :=
  { success := errors.length == 0, urls := urls, errors := errors,
    fileType := fileType }

def createParseError (message : String) : ParseError :=
  ⟨("parsing"), .warning, message, true, .skip⟩

/-- extractUrlsByFileType: run the selected scanner, catching any exception
into one parse error (the partial token list of a throwing scanner is
discarded). -/
def extractUrlsByFileTypeW (scan : String → Except String (List Url))
    (content : String) : List Url × List ParseError :=
  match scan content with
  | .ok us => (us, [])
  | .error msg => ([], [createParseError msg])

/-- extractUrls of extract.ts over the selected scanner `scan`. -/
def extractUrlsWith (scan : String → Except String (List Url))
    (content : String) (languageId : String) (cancelled : Bool) : ExtractionResult :=
  if cancelled then createEmptyResult .unknown
  else if MAX_CONTENT_SIZE < content.length then
    createErrorResult .unknown (sizeErrorMessage content.length)
  else
    let fileType := determineFileType languageId
    if cancelled then createEmptyResult fileType
    else
      let er := extractUrlsByFileTypeW scan content
      if MAX_URL_COUNT < er.1.length then
        createTruncatedResult er.1 fileType er.1.length
      else
        createSuccessResult er.1 er.2 fileType

/-! ## Post-processing utilities (collect.ts, embedded in
src/src/extraction/collect.test.ts) -/

/-- The normalized key of deduplicateUrls: value.trim().toLowerCase()
(toLowerCase modelled by the ASCII lowering of Char.toLower). -/
def normValue (s : String) : List Char :=
  (trimJs s.data).map Char.toLower

def dedupGo (seen : List (List Char)) : List Url → List Url
  | [] => []
  | u :: rest =>
    let n := normValue u.value
    if seen.contains n then dedupGo seen rest
    else u :: dedupGo (n :: seen) rest

/-- deduplicateUrls: keep the first occurrence per normalized value,
preserving order. -/
def deduplicateUrls (urls : List Url) : List Url :=
  dedupGo [] urls

/-! Array.prototype.sort with a consistent comparator is, per the
ECMAScript specification, a stable sort with respect to the comparator's
preorder; it is modelled as a stable insertion sort, and
String.prototype.localeCompare as code-point lexicographic comparison. -/

def stableInsert (le : α → α → Bool) (a : α) : List α → List α
  | [] => [a]
  | b :: bs => if le b a then b :: stableInsert le a bs else a :: b :: bs

def jsSort (le : α → α → Bool) (l : List α) : List α :=
  l.foldl (fun acc x => stableInsert le x acc) []

def charListCmp : List Char → List Char → Ordering
  | [], [] => .eq
  | [], _ :: _ => .lt
  | _ :: _, [] => .gt
  | a :: as, b :: bs =>
    if a < b then .lt else if b < a then .gt else charListCmp as bs

def natCmp (m n : Nat) : Ordering :=
  if m < n then .lt else if n < m then .gt else .eq

def ordLex (o1 o2 : Ordering) : Ordering :=
  match o1 with
  | .eq => o2
  | o => o

def ordIsLe (o : Ordering) : Bool :=
  match o with
  | .gt => false
  | _ => true

/-- The comparator of sortUrls for mode value. -/
def valLe (a b : Url) : Bool :=
  ordIsLe (charListCmp a.value.data b.value.data)

/-- a.type ?? the literal unknown, as the type and domain comparators read
it. -/
def typeKey (u : Url) : List Char :=
  (u.type.getD ("unknown")).data

/-- The comparator of sortUrls for mode type: type, then value. -/
def typeLe (a b : Url) : Bool :=
  ordIsLe (ordLex (charListCmp (typeKey a) (typeKey b))
                  (charListCmp a.value.data b.value.data))

/-- getDomain of the domain comparator: the parsed hostname for http/https
typed tokens (the raw value if parsing throws), the raw value otherwise. -/
def domainKey (u : Url) : List Char :=
  if u.type == some ("http") || u.type == some ("https") then
    match parseUrlM u.value with
    | some p => p.hostname.data
    | none => u.value.data
  else u.value.data

/-- The comparator of sortUrls for mode domain: domain, then value. -/
def domainLe (a b : Url) : Bool :=
  ordIsLe (ordLex (charListCmp (domainKey a) (domainKey b))
                  (charListCmp a.value.data b.value.data))

/-- The comparator of sortUrls for mode length: value length, then value. -/
def lengthLe (a b : Url) : Bool :=
  ordIsLe (ordLex (natCmp a.value.data.length b.value.data.length)
                  (charListCmp a.value.data b.value.data))

/-- The sort modes of sortUrls. -/
inductive SortBy where
  | value | type | domain | length
deriving DecidableEq, Repr

def sortLeOf : SortBy → Url → Url → Bool
  | .value => valLe
  | .type => typeLe
  | .domain => domainLe
  | .length => lengthLe

/-- sortUrls of collect.ts. -/
def sortUrls (urls : List Url) (sortBy : SortBy) : List Url :=
  jsSort (sortLeOf sortBy) urls

/-! ## Auxiliary definitions for the statements -/

/-- The 0-based indices of the lines the Markdown scanner processes (the
lines not suppressed by the fenced-code state), folding the fence state
exactly as the scanner does. -/
def mdProcList (b : Bool) : List (Nat × List Char) → List Nat
  | [] => []
  | p :: rest =>
    if updateCodeBlockState p.2 b then mdProcList (updateCodeBlockState p.2 b) rest
    else p.1 :: mdProcList (updateCodeBlockState p.2 b) rest

def mdProcessedLines (content : String) : List Nat :=
  mdProcList false (splitLines content.data).enum

/-- A concrete token used to instantiate the truncation theorem. -/
def wUrl : Url := { value := ("u"), protocol := .https }


/-! ## Supporting lemmas -/

theorem charListCmp_eq_iff : ∀ (a b : List Char), charListCmp a b = .eq ↔ a = b := by
  intro a
  induction a with
  | nil => intro b; cases b <;> simp [charListCmp]
  | cons x xs ih =>
    intro b
    cases b with
    | nil => simp [charListCmp]
    | cons y ys =>
      rw [charListCmp]
      by_cases h1 : x < y
      · simp only [h1, if_true]
        constructor
        · intro hc; exact absurd hc (by simp)
        · intro hc
          rcases List.cons.injEq .. ▸ hc with h
          simp at h
          exact absurd (h.1 ▸ h1) (lt_irrefl y)
      · by_cases h2 : y < x
        · simp only [h1, h2, if_false, if_true]
          constructor
          · intro hc; exact absurd hc (by simp)
          · intro hc
            rcases List.cons.injEq .. ▸ hc with h
            simp at h
            exact absurd (h.1 ▸ h2) (lt_irrefl y)
        · have hxy : x = y := le_antisymm (not_lt.mp h2) (not_lt.mp h1)
          subst hxy
          simp only [h1, h2, if_false]
          rw [ih ys]
          simp

theorem charListCmp_gt_iff_lt : ∀ (a b : List Char),
    charListCmp a b = .gt ↔ charListCmp b a = .lt := by
  intro a
  induction a with
  | nil => intro b; cases b <;> simp [charListCmp]
  | cons x xs ih =>
    intro b
    cases b with
    | nil => simp [charListCmp]
    | cons y ys =>
      rw [charListCmp, charListCmp]
      by_cases h1 : x < y
      · have h2 : ¬(y < x) := fun hc => absurd (lt_trans h1 hc) (lt_irrefl x)
        simp [h1, h2]
      · by_cases h2 : y < x
        · simp [h1, h2]
        · simp only [h1, h2, if_false]
          exact ih ys

theorem charListCmp_lt_trans : ∀ (a b c : List Char),
    charListCmp a b = .lt → charListCmp b c = .lt → charListCmp a c = .lt := by
  intro a
  induction a with
  | nil =>
    intro b c hab hbc
    cases b with
    | nil => simp [charListCmp] at hab
    | cons y ys =>
      cases c with
      | nil => simp [charListCmp] at hbc
      | cons z zs => simp [charListCmp]
  | cons x xs ih =>
    intro b c hab hbc
    cases b with
    | nil => simp [charListCmp] at hab
    | cons y ys =>
      cases c with
      | nil => simp [charListCmp] at hbc
      | cons z zs =>
        rw [charListCmp] at hab hbc ⊢
        by_cases hxy : x < y
        · by_cases hyz : y < z
          · simp [lt_trans hxy hyz]
          · by_cases hzy : z < y
            · simp only [hyz, hzy, if_false, if_true] at hbc
              exact absurd hbc (by simp)
            · have : y = z := le_antisymm (not_lt.mp hzy) (not_lt.mp hyz)
              simp [this ▸ hxy]
        · by_cases hyx : y < x
          · simp only [hxy, hyx, if_false, if_true] at hab
            exact absurd hab (by simp)
          · have hxy2 : x = y := le_antisymm (not_lt.mp hyx) (not_lt.mp hxy)
            subst hxy2
            simp only [hxy, hyx, if_false] at hab
            by_cases hyz : x < z
            · simp [hyz]
            · by_cases hzy : z < x
              · simp only [hyz, hzy, if_false, if_true] at hbc
                exact absurd hbc (by simp)
              · have : x = z := le_antisymm (not_lt.mp hzy) (not_lt.mp hyz)
                subst this
                simp only [hyz, hzy, if_false] at hbc ⊢
                exact ih ys zs hab hbc

theorem natCmp_eq_iff (m n : Nat) : natCmp m n = .eq ↔ m = n := by
  unfold natCmp
  by_cases h1 : m < n
  · simp [h1, Nat.ne_of_lt h1]
  · by_cases h2 : n < m
    · simp [h1, h2, (Nat.ne_of_lt h2).symm]
    · simp [h1, h2, Nat.le_antisymm (Nat.not_lt.mp h2) (Nat.not_lt.mp h1)]

theorem natCmp_gt_iff_lt (m n : Nat) : natCmp m n = .gt ↔ natCmp n m = .lt := by
  unfold natCmp
  by_cases h1 : m < n
  · have h2 : ¬(n < m) := fun hc => absurd (Nat.lt_trans h1 hc) (Nat.lt_irrefl m)
    simp [h1, h2]
  · by_cases h2 : n < m
    · simp [h1, h2]
    · simp [h1, h2]

theorem natCmp_lt_trans (m n k : Nat) :
    natCmp m n = .lt → natCmp n k = .lt → natCmp m k = .lt := by
  intro h1 h2
  have hm : m < n := by
    by_cases h : m < n
    · exact h
    · unfold natCmp at h1
      rw [if_neg h] at h1
      split at h1 <;> simp_all
  have hn : n < k := by
    by_cases h : n < k
    · exact h
    · unfold natCmp at h2
      rw [if_neg h] at h2
      split at h2 <;> simp_all
  unfold natCmp
  simp [Nat.lt_trans hm hn]

theorem cmpLe_trans {κ : Type} (C : κ → κ → Ordering)
    (heq : ∀ x y, C x y = .eq ↔ x = y)
    (htr : ∀ x y z, C x y = .lt → C y z = .lt → C x z = .lt) :
    ∀ x y z, ordIsLe (C x y) = true → ordIsLe (C y z) = true →
      ordIsLe (C x z) = true := by
  intro x y z hxy hyz
  cases h1 : C x y with
  | gt => rw [h1] at hxy; exact Bool.noConfusion hxy
  | eq =>
    have he := (heq x y).mp h1
    subst he
    exact hyz
  | lt =>
    cases h2 : C y z with
    | gt => rw [h2] at hyz; exact Bool.noConfusion hyz
    | eq =>
      have he := (heq y z).mp h2
      subst he
      rw [h1]
      rfl
    | lt =>
      rw [htr x y z h1 h2]
      rfl

theorem cmpLe_total {κ : Type} (C : κ → κ → Ordering)
    (hgt : ∀ x y, C x y = .gt ↔ C y x = .lt) :
    ∀ x y, ordIsLe (C x y) = true ∨ ordIsLe (C y x) = true := by
  intro x y
  cases h : C x y with
  | lt => left; rfl
  | eq => left; rfl
  | gt =>
    right
    rw [(hgt x y).mp h]
    rfl

theorem lexLe_trans {α : Type} {κ1 κ2 : Type}
    (C1 : κ1 → κ1 → Ordering) (C2 : κ2 → κ2 → Ordering)
    (h1eq : ∀ x y, C1 x y = .eq ↔ x = y)
    (h1tr : ∀ x y z, C1 x y = .lt → C1 y z = .lt → C1 x z = .lt)
    (h2eq : ∀ x y, C2 x y = .eq ↔ x = y)
    (h2tr : ∀ x y z, C2 x y = .lt → C2 y z = .lt → C2 x z = .lt)
    (k1 : α → κ1) (k2 : α → κ2) :
    ∀ a b c, ordIsLe (ordLex (C1 (k1 a) (k1 b)) (C2 (k2 a) (k2 b))) = true →
      ordIsLe (ordLex (C1 (k1 b) (k1 c)) (C2 (k2 b) (k2 c))) = true →
      ordIsLe (ordLex (C1 (k1 a) (k1 c)) (C2 (k2 a) (k2 c))) = true := by
  intro a b c hab hbc
  cases h1 : C1 (k1 a) (k1 b) with
  | gt => rw [h1] at hab; exact Bool.noConfusion hab
  | lt =>
    cases h2 : C1 (k1 b) (k1 c) with
    | gt => rw [h2] at hbc; exact Bool.noConfusion hbc
    | eq =>
      have he2 := (h1eq _ _).mp h2
      have hac : C1 (k1 a) (k1 c) = .lt := by rw [← he2]; exact h1
      rw [hac]
      rfl
    | lt =>
      rw [h1tr _ _ _ h1 h2]
      rfl
  | eq =>
    have he := (h1eq _ _).mp h1
    rw [h1] at hab
    cases h2 : C1 (k1 b) (k1 c) with
    | gt => rw [h2] at hbc; exact Bool.noConfusion hbc
    | lt =>
      have hac : C1 (k1 a) (k1 c) = .lt := by rw [he]; exact h2
      rw [hac]
      rfl
    | eq =>
      have he2 := (h1eq _ _).mp h2
      rw [h2] at hbc
      rw [(h1eq (k1 a) (k1 c)).mpr (he.trans he2)]
      show ordIsLe (C2 (k2 a) (k2 c)) = true
      have hab2 : ordIsLe (C2 (k2 a) (k2 b)) = true := hab
      have hbc2 : ordIsLe (C2 (k2 b) (k2 c)) = true := hbc
      exact cmpLe_trans C2 h2eq h2tr _ _ _ hab2 hbc2

theorem lexLe_total {α : Type} {κ1 κ2 : Type}
    (C1 : κ1 → κ1 → Ordering) (C2 : κ2 → κ2 → Ordering)
    (h1eq : ∀ x y, C1 x y = .eq ↔ x = y)
    (h1gt : ∀ x y, C1 x y = .gt ↔ C1 y x = .lt)
    (h2gt : ∀ x y, C2 x y = .gt ↔ C2 y x = .lt)
    (k1 : α → κ1) (k2 : α → κ2) :
    ∀ a b, ordIsLe (ordLex (C1 (k1 a) (k1 b)) (C2 (k2 a) (k2 b))) = true ∨
      ordIsLe (ordLex (C1 (k1 b) (k1 a)) (C2 (k2 b) (k2 a))) = true := by
  intro a b
  cases h1 : C1 (k1 a) (k1 b) with
  | lt => left; rfl
  | gt =>
    right
    rw [(h1gt _ _).mp h1]
    rfl
  | eq =>
    have he := (h1eq _ _).mp h1
    have h1b : C1 (k1 b) (k1 a) = .eq := (h1eq _ _).mpr he.symm
    rcases cmpLe_total C2 h2gt (k2 a) (k2 b) with h | h
    · left
      exact h
    · right
      rw [h1b]
      exact h

theorem mem_stableInsert (le : α → α → Bool) (a x : α) :
    ∀ l, x ∈ stableInsert le a l ↔ x = a ∨ x ∈ l := by
  intro l
  induction l with
  | nil => simp [stableInsert]
  | cons b bs ih =>
    rw [stableInsert]
    by_cases h : le b a = true
    all_goals
      simp only [h, if_true, Bool.false_eq_true, if_false, List.mem_cons, ih]
      try tauto

theorem pairwise_stableInsert (le : α → α → Bool)
    (htr : ∀ x y z, le x y = true → le y z = true → le x z = true)
    (hto : ∀ x y, le x y = true ∨ le y x = true) (a : α) :
    ∀ l, l.Pairwise (fun x y => le x y = true) →
      (stableInsert le a l).Pairwise (fun x y => le x y = true) := by
  intro l
  induction l with
  | nil => intro _; simp [stableInsert]
  | cons b bs ih =>
    intro hp
    rw [stableInsert]
    rcases List.pairwise_cons.mp hp with ⟨hb, hbs⟩
    by_cases h : le b a = true
    · simp only [h, if_true]
      refine List.pairwise_cons.mpr ⟨?_, ih hbs⟩
      intro y hy
      rcases (mem_stableInsert le a y bs).mp hy with rfl | h2
      · exact h
      · exact hb y h2
    · simp only [h, Bool.false_eq_true, if_false]
      have hab : le a b = true := by
        rcases hto a b with h1 | h1
        · exact h1
        · exact absurd h1 h
      refine List.pairwise_cons.mpr ⟨?_, hp⟩
      intro y hy
      rcases List.mem_cons.mp hy with rfl | h2
      · exact hab
      · exact htr a b y hab (hb y h2)

theorem pairwise_jsSort (le : α → α → Bool)
    (htr : ∀ x y z, le x y = true → le y z = true → le x z = true)
    (hto : ∀ x y, le x y = true ∨ le y x = true) :
    ∀ (l acc : List α), acc.Pairwise (fun x y => le x y = true) →
      (l.foldl (fun acc x => stableInsert le x acc) acc).Pairwise
        (fun x y => le x y = true) := by
  intro l
  induction l with
  | nil => intro acc h; exact h
  | cons a rest ih =>
    intro acc h
    exact ih _ (pairwise_stableInsert le htr hto a acc h)

theorem jsSort_pairwise (le : α → α → Bool)
    (htr : ∀ x y z, le x y = true → le y z = true → le x z = true)
    (hto : ∀ x y, le x y = true ∨ le y x = true) (l : List α) :
    (jsSort le l).Pairwise (fun x y => le x y = true) :=
  pairwise_jsSort le htr hto l [] (List.Pairwise.nil)

theorem stableInsert_all_le (le : α → α → Bool) (a : α) :
    ∀ l, (∀ b ∈ l, le b a = true) → stableInsert le a l = l ++ [a] := by
  intro l
  induction l with
  | nil => intro _; rfl
  | cons b bs ih =>
    intro h
    rw [stableInsert, if_pos (h b (List.mem_cons_self _ _))]
    rw [ih (fun x hx => h x (List.mem_cons_of_mem _ hx))]
    rfl

theorem foldl_insert_of_sorted (le : α → α → Bool) :
    ∀ (l acc : List α), (acc ++ l).Pairwise (fun x y => le x y = true) →
      l.foldl (fun acc x => stableInsert le x acc) acc = acc ++ l := by
  intro l
  induction l with
  | nil => intro acc _; simp
  | cons a rest ih =>
    intro acc h
    rw [List.foldl_cons]
    have hall : ∀ b ∈ acc, le b a = true := by
      intro b hb
      have := (List.pairwise_append.mp h).2.2
      exact this b hb a (List.mem_cons_self _ _)
    rw [stableInsert_all_le le a acc hall]
    rw [ih (acc ++ [a]) (by simpa using h)]
    simp

theorem jsSort_of_pairwise (le : α → α → Bool) (l : List α)
    (h : l.Pairwise (fun x y => le x y = true)) : jsSort le l = l := by
  unfold jsSort
  rw [foldl_insert_of_sorted le l [] (by simpa using h)]
  simp

theorem jsSort_idem (le : α → α → Bool)
    (htr : ∀ x y z, le x y = true → le y z = true → le x z = true)
    (hto : ∀ x y, le x y = true ∨ le y x = true) (l : List α) :
    jsSort le (jsSort le l) = jsSort le l :=
  jsSort_of_pairwise le _ (jsSort_pairwise le htr hto l)

theorem sortLe_trans (m : SortBy) :
    ∀ a b c, sortLeOf m a b = true → sortLeOf m b c = true → sortLeOf m a c = true := by
  cases m with
  | value =>
    intro a b c hab hbc
    exact cmpLe_trans charListCmp charListCmp_eq_iff charListCmp_lt_trans _ _ _ hab hbc
  | type =>
    exact lexLe_trans charListCmp charListCmp charListCmp_eq_iff charListCmp_lt_trans
      charListCmp_eq_iff charListCmp_lt_trans typeKey (fun u : Url => u.value.data)
  | domain =>
    exact lexLe_trans charListCmp charListCmp charListCmp_eq_iff charListCmp_lt_trans
      charListCmp_eq_iff charListCmp_lt_trans domainKey (fun u : Url => u.value.data)
  | length =>
    exact lexLe_trans natCmp charListCmp natCmp_eq_iff natCmp_lt_trans
      charListCmp_eq_iff charListCmp_lt_trans (fun u : Url => u.value.data.length)
      (fun u : Url => u.value.data)

theorem sortLe_total (m : SortBy) :
    ∀ a b, sortLeOf m a b = true ∨ sortLeOf m b a = true := by
  cases m with
  | value =>
    intro a b
    exact cmpLe_total charListCmp charListCmp_gt_iff_lt _ _
  | type =>
    exact lexLe_total charListCmp charListCmp charListCmp_eq_iff charListCmp_gt_iff_lt
      charListCmp_gt_iff_lt typeKey (fun u : Url => u.value.data)
  | domain =>
    exact lexLe_total charListCmp charListCmp charListCmp_eq_iff charListCmp_gt_iff_lt
      charListCmp_gt_iff_lt domainKey (fun u : Url => u.value.data)
  | length =>
    exact lexLe_total natCmp charListCmp natCmp_eq_iff natCmp_gt_iff_lt
      charListCmp_gt_iff_lt (fun u : Url => u.value.data.length) (fun u : Url => u.value.data)

theorem lengthLe_iff (a b : Url) :
    lengthLe a b = true ↔
      a.value.length < b.value.length ∨
      (a.value.length = b.value.length ∧
        ordIsLe (charListCmp a.value.data b.value.data) = true) := by
  have hdef : lengthLe a b =
      ordIsLe (ordLex (natCmp a.value.length b.value.length)
        (charListCmp a.value.data b.value.data)) := rfl
  rw [hdef]
  by_cases h1 : a.value.length < b.value.length
  · rw [show natCmp a.value.length b.value.length = .lt from by
      unfold natCmp; simp [h1]]
    constructor
    · intro _; exact Or.inl h1
    · intro _; rfl
  · by_cases h2 : b.value.length < a.value.length
    · rw [show natCmp a.value.length b.value.length = .gt from by
        unfold natCmp; simp [h1, h2]]
      constructor
      · intro hc; exact Bool.noConfusion hc
      · intro hc
        rcases hc with h3 | ⟨h3, _⟩
        · exact absurd h3 h1
        · omega
    · have heq : a.value.length = b.value.length := by omega
      rw [show natCmp a.value.length b.value.length = .eq from by
        unfold natCmp; simp [h1, h2]]
      constructor
      · intro h3; exact Or.inr ⟨heq, h3⟩
      · intro h3
        rcases h3 with h4 | ⟨_, h4⟩
        · exact absurd h4 h1
        · exact h4

theorem mdStep_inCodeBlock (throws : Nat → Bool) (st : MdState) (p : Nat × List Char) :
    (mdStep throws st p).inCodeBlock = updateCodeBlockState p.2 st.inCodeBlock := by
  unfold mdStep
  by_cases h1 : updateCodeBlockState p.2 st.inCodeBlock <;>
    by_cases h2 : throws p.1 <;> simp [h1, h2]

theorem mdStep_log (throws : Nat → Bool) (st : MdState) (p : Nat × List Char) :
    (mdStep throws st p).log =
      if updateCodeBlockState p.2 st.inCodeBlock then st.log
      else if throws p.1 then st.log ++ [mdWarnMsg (p.1 + 1)] else st.log := by
  unfold mdStep
  by_cases h1 : updateCodeBlockState p.2 st.inCodeBlock <;>
    by_cases h2 : throws p.1 <;> simp [h1, h2]

theorem mdFold_log (throws : Nat → Bool) :
    ∀ (L : List (Nat × List Char)) (st : MdState),
      (L.foldl (mdStep throws) st).log =
        st.log ++ ((mdProcList st.inCodeBlock L).filter throws).map (fun i => mdWarnMsg (i + 1)) := by
  intro L
  induction L with
  | nil => intro st; simp [mdProcList]
  | cons p rest ih =>
    intro st
    rw [List.foldl_cons, ih (mdStep throws st p), mdStep_log, mdStep_inCodeBlock]
    by_cases h1 : updateCodeBlockState p.2 st.inCodeBlock <;>
      by_cases h2 : throws p.1 <;>
        simp [mdProcList, h1, h2, List.append_assoc]

def mdInv (st : List String × List Url) : Prop :=
  (st.2.map (fun u => u.value)).Nodup ∧
  ∀ v ∈ st.2.map (fun u => u.value), v ∈ st.1

theorem addUrlIfNew_inv (line : List Char) (i : Nat)
    (st : List String × List Url) (cand : Nat × List Char) (h : mdInv st) :
    mdInv (addUrlIfNew line i st cand) := by
  by_cases hc : strOf cand.2 ∈ st.1
  · have hcc : st.1.contains (strOf cand.2) = true := by simpa using hc
    simpa [addUrlIfNew, hcc, hc] using h
  · have hcc : st.1.contains (strOf cand.2) = false := by simpa using hc
    refine ⟨?_, ?_⟩
    · simp only [addUrlIfNew, hcc, Bool.false_eq_true, if_false, List.map_append]
      rw [List.nodup_append]
      refine ⟨h.1, by simp, ?_⟩
      intro v hv hv2
      simp [createUrlC] at hv2
      subst hv2
      exact hc (h.2 _ hv)
    · intro v hv
      simp only [addUrlIfNew, hcc, Bool.false_eq_true, if_false, List.map_append] at hv ⊢
      rcases List.mem_append.mp hv with h1 | h1
      · exact List.mem_cons_of_mem _ (h.2 _ h1)
      · simp [createUrlC] at h1
        simp [h1]

theorem foldl_addUrlIfNew_inv (line : List Char) (i : Nat) :
    ∀ (cands : List (Nat × List Char)) (st : List String × List Url),
      mdInv st → mdInv (cands.foldl (addUrlIfNew line i) st) := by
  intro cands
  induction cands with
  | nil => intro st h; exact h
  | cons c rest ih => intro st h; exact ih _ (addUrlIfNew_inv line i st c h)

theorem mdStep_inv (throws : Nat → Bool) (st : MdState) (p : Nat × List Char)
    (h : mdInv (st.seen, st.urls)) :
    mdInv ((mdStep throws st p).seen, (mdStep throws st p).urls) := by
  unfold mdStep
  by_cases h1 : updateCodeBlockState p.2 st.inCodeBlock <;>
    by_cases h2 : throws p.1 <;>
      simp only [h1, h2, if_true, if_false, Bool.false_eq_true, ite_true, ite_false]
  · exact h
  · exact h
  · exact h
  · exact foldl_addUrlIfNew_inv p.2 p.1 (mdLineCands p.2) (st.seen, st.urls) h

theorem mdFold_inv (throws : Nat → Bool) :
    ∀ (L : List (Nat × List Char)) (st : MdState),
      mdInv (st.seen, st.urls) →
      mdInv ((L.foldl (mdStep throws) st).seen, (L.foldl (mdStep throws) st).urls) := by
  intro L
  induction L with
  | nil => intro st h; exact h
  | cons p rest ih => intro st h; exact ih _ (mdStep_inv throws st p h)

theorem extractFromMarkdown_nodup (content : String) :
    ((extractFromMarkdown content).map (fun u => u.value)).Nodup := by
  have := mdFold_inv (fun _ => false) (splitLines content.data).enum
    ⟨false, [], [], []⟩ (by constructor <;> simp)
  exact this.1

theorem htmlFold_inv :
    ∀ (L : List (Nat × List Char)) (st : List String × List Url),
      mdInv st →
      mdInv (L.foldl (fun st p => (htmlLineCands p.2).foldl (addUrlIfNew p.2 p.1) st) st) := by
  intro L
  induction L with
  | nil => intro st h; exact h
  | cons p rest ih =>
    intro st h
    exact ih _ (foldl_addUrlIfNew_inv p.2 p.1 (htmlLineCands p.2) st h)

theorem extractFromHtml_nodup (content : String) :
    ((extractFromHtml content).map (fun u => u.value)).Nodup := by
  have := htmlFold_inv (splitLines content.data).enum ([], []) (by constructor <;> simp)
  exact this.1

theorem scanPrefixedF_ne (ps : List (List Char)) :
    ∀ (fuel : Nat) (cs : List Char) (i : Nat), ∀ m ∈ scanPrefixedF ps fuel cs i, m.2 ≠ [] := by
  intro fuel
  induction fuel with
  | zero => intro cs i m hm; simp [scanPrefixedF] at hm
  | succ n ih =>
    intro cs i m hm
    cases cs with
    | nil => simp [scanPrefixedF] at hm
    | cons c cs2 =>
      rw [scanPrefixedF] at hm
      rcases hfp : matchFirstPrefix ps (c :: cs2) with _ | p
      · rw [hfp] at hm
        exact ih cs2 (i + 1) m hm
      · rw [hfp] at hm
        simp only at hm
        by_cases hrun : (((c :: cs2).drop p.length).takeWhile (fun ch => !(urlStopChar ch))).isEmpty
        · rw [if_pos hrun] at hm
          exact ih cs2 (i + 1) m hm
        · rw [if_neg hrun] at hm
          rcases List.mem_cons.mp hm with h1 | h1
          · subst h1
            intro hemp
            rcases List.append_eq_nil.mp hemp with ⟨_, hr⟩
            rw [hr] at hrun
            simp at hrun
          · exact ih _ _ m h1

theorem autolinkF_ne :
    ∀ (fuel : Nat) (cs : List Char) (i : Nat), ∀ m ∈ autolinkF fuel cs i, m.2 ≠ [] := by
  intro fuel
  induction fuel with
  | zero => intro cs i m hm; simp [autolinkF] at hm
  | succ n ih =>
    intro cs i m hm
    cases cs with
    | nil => simp [autolinkF] at hm
    | cons c cs2 =>
      rw [autolinkF] at hm
      dsimp only at hm
      repeat' split at hm
      all_goals
        first
        | exact ih _ _ m hm
        | (rename_i hguard
           rcases List.mem_cons.mp hm with h1 | h1
           · subst h1
             intro hemp
             simp at hemp
             simp [hemp] at hguard
           · exact ih _ _ m h1)

theorem linkTargetsF_ne :
    ∀ (fuel : Nat) (cs : List Char) (i : Nat), ∀ m ∈ linkTargetsF fuel cs i, m.2 ≠ [] := by
  intro fuel
  induction fuel with
  | zero => intro cs i m hm; simp [linkTargetsF] at hm
  | succ n ih =>
    intro cs i m hm
    cases cs with
    | nil => simp [linkTargetsF] at hm
    | cons c cs2 =>
      rw [linkTargetsF] at hm
      dsimp only at hm
      repeat' split at hm
      all_goals
        first
        | exact ih _ _ m hm
        | (rename_i hguard
           rcases List.mem_cons.mp hm with h1 | h1
           · subst h1
             intro hemp
             simp at hemp
             simp [hemp] at hguard
           · exact ih _ _ m h1)

theorem attrF_ne (name : List Char) :
    ∀ (fuel : Nat) (cs : List Char) (i : Nat), ∀ m ∈ attrF name fuel cs i, m.2 ≠ [] := by
  intro fuel
  induction fuel with
  | zero => intro cs i m hm; simp [attrF] at hm
  | succ n ih =>
    intro cs i m hm
    cases cs with
    | nil => simp [attrF] at hm
    | cons c cs2 =>
      rw [attrF] at hm
      dsimp only at hm
      repeat' split at hm
      all_goals
        first
        | exact ih _ _ m hm
        | (rename_i hguard
           rcases List.mem_cons.mp hm with h1 | h1
           · subst h1
             intro hemp
             simp at hemp
             simp [hemp] at hguard
           · exact ih _ _ m h1)

theorem mdLineCands_ne (line : List Char) : ∀ m ∈ mdLineCands line, m.2 ≠ [] := by
  intro m hm
  unfold mdLineCands at hm
  rcases List.mem_append.mp hm with h1 | h1
  · rcases List.mem_append.mp h1 with h2 | h2
    · exact linkTargetsF_ne _ _ _ m (List.mem_filter.mp h2).1
    · exact autolinkF_ne _ _ _ m (List.mem_filter.mp h2).1
  · rcases List.mem_flatMap.mp h1 with ⟨pp, _, hmem⟩
    exact scanPrefixedF_ne pp.2 _ _ _ m (List.mem_filter.mp hmem).1

theorem htmlLineCands_ne (line : List Char) : ∀ m ∈ htmlLineCands line, m.2 ≠ [] := by
  intro m hm
  unfold htmlLineCands at hm
  rcases List.mem_append.mp hm with h1 | h1
  · rcases List.mem_append.mp h1 with h2 | h2
    · rcases List.mem_append.mp h2 with h3 | h3
      · exact attrF_ne _ _ _ _ m (List.mem_filter.mp h3).1
      · exact attrF_ne _ _ _ _ m (List.mem_filter.mp h3).1
    · exact attrF_ne _ _ _ _ m (List.mem_filter.mp h2).1
  · rcases List.mem_flatMap.mp h1 with ⟨pp, _, hmem⟩
    exact scanPrefixedF_ne pp.2 _ _ _ m (List.mem_filter.mp hmem).1

def protInv (st : List String × List Url) : Prop :=
  ∀ u ∈ st.2, u.protocol = detectUrlProtocol u.value ∧ u.value ≠ ("")

theorem strOf_ne_empty {cs : List Char} (h : cs ≠ []) : strOf cs ≠ ("") := by
  intro hc
  exact h (by simpa [strOf, String.ext_iff] using hc)

theorem addUrlIfNew_prot (line : List Char) (i : Nat)
    (st : List String × List Url) (cand : Nat × List Char)
    (hcand : cand.2 ≠ []) (h : protInv st) :
    protInv (addUrlIfNew line i st cand) := by
  by_cases hc : strOf cand.2 ∈ st.1
  · have hcc : st.1.contains (strOf cand.2) = true := by simpa using hc
    simpa [addUrlIfNew, hcc, hc] using h
  · have hcc : st.1.contains (strOf cand.2) = false := by simpa using hc
    intro u hu
    simp only [addUrlIfNew, hcc, Bool.false_eq_true, if_false] at hu
    rcases List.mem_append.mp hu with h1 | h1
    · exact h u h1
    · rcases List.mem_singleton.mp h1 with rfl
      exact ⟨rfl, strOf_ne_empty hcand⟩

theorem foldl_addUrlIfNew_prot (line : List Char) (i : Nat) :
    ∀ (cands : List (Nat × List Char)) (st : List String × List Url),
      (∀ m ∈ cands, m.2 ≠ []) → protInv st →
      protInv (cands.foldl (addUrlIfNew line i) st) := by
  intro cands
  induction cands with
  | nil => intro st _ h; exact h
  | cons c rest ih =>
    intro st hne h
    exact ih _ (fun m hm => hne m (List.mem_cons_of_mem _ hm))
      (addUrlIfNew_prot line i st c (hne c (List.mem_cons_self c rest)) h)

theorem mdStep_prot (throws : Nat → Bool) (st : MdState) (p : Nat × List Char)
    (h : protInv (st.seen, st.urls)) :
    protInv ((mdStep throws st p).seen, (mdStep throws st p).urls) := by
  unfold mdStep
  by_cases h1 : updateCodeBlockState p.2 st.inCodeBlock <;>
    by_cases h2 : throws p.1 <;>
      simp only [h1, h2, if_true, if_false, Bool.false_eq_true, ite_true, ite_false]
  · exact h
  · exact h
  · exact h
  · exact foldl_addUrlIfNew_prot p.2 p.1 (mdLineCands p.2) (st.seen, st.urls)
      (mdLineCands_ne p.2) h

theorem mdFold_prot (throws : Nat → Bool) :
    ∀ (L : List (Nat × List Char)) (st : MdState),
      protInv (st.seen, st.urls) →
      protInv ((L.foldl (mdStep throws) st).seen, (L.foldl (mdStep throws) st).urls) := by
  intro L
  induction L with
  | nil => intro st h; exact h
  | cons p rest ih => intro st h; exact ih _ (mdStep_prot throws st p h)

theorem extractFromMarkdown_prot (content : String) :
    ∀ u ∈ extractFromMarkdown content,
      u.protocol = detectUrlProtocol u.value ∧ u.value ≠ ("") := by
  have := mdFold_prot (fun _ => false) (splitLines content.data).enum
    ⟨false, [], [], []⟩ (by intro u hu; simp at hu)
  exact this

theorem yamlLine_values (line : List Char) (i : Nat) :
    ∀ u ∈ yamlLine line i, u.value ≠ ("") := by
  intro u hu
  unfold yamlLine at hu
  rcases List.mem_flatMap.mp hu with ⟨pp, _, hmem⟩
  rcases List.mem_map.mp hmem with ⟨m, hm, rfl⟩
  exact strOf_ne_empty (scanPrefixedF_ne pp.2 _ _ _ m hm)

theorem extractFromYaml_values (content : String) :
    ∀ u ∈ extractFromYaml content, u.value ≠ ("") := by
  intro u hu
  unfold extractFromYaml at hu
  rcases List.mem_flatMap.mp hu with ⟨p, _, hmem⟩
  exact yamlLine_values p.2 p.1 u hmem

theorem htmlFold_prot :
    ∀ (L : List (Nat × List Char)) (st : List String × List Url),
      protInv st →
      protInv (L.foldl (fun st p => (htmlLineCands p.2).foldl (addUrlIfNew p.2 p.1) st) st) := by
  intro L
  induction L with
  | nil => intro st h; exact h
  | cons p rest ih =>
    intro st h
    exact ih _ (foldl_addUrlIfNew_prot p.2 p.1 (htmlLineCands p.2) st
      (htmlLineCands_ne p.2) h)

theorem extractFromHtml_prot (content : String) :
    ∀ u ∈ extractFromHtml content,
      u.protocol = detectUrlProtocol u.value ∧ u.value ≠ ("") := by
  have := htmlFold_prot (splitLines content.data).enum ([], [])
    (by intro u hu; simp at hu)
  exact this

theorem dedupGo_sublist : ∀ (l : List Url) (seen : List (List Char)),
    (dedupGo seen l).Sublist l := by
  intro l
  induction l with
  | nil => intro seen; simp [dedupGo]
  | cons u rest ih =>
    intro seen
    rw [dedupGo]
    by_cases hc : seen.contains (normValue u.value) = true
    · simp only [hc, if_true]
      exact (ih seen).cons u
    · simp only [hc, Bool.false_eq_true, if_false]
      exact (ih _).cons₂ u

theorem dedupGo_not_seen : ∀ (l : List Url) (seen : List (List Char)),
    ∀ v ∈ dedupGo seen l, normValue v.value ∉ seen := by
  intro l
  induction l with
  | nil => intro seen v hv; simp [dedupGo] at hv
  | cons u rest ih =>
    intro seen v hv
    rw [dedupGo] at hv
    by_cases hc : seen.contains (normValue u.value) = true
    · simp only [hc, if_true] at hv
      exact ih seen v hv
    · simp only [hc, Bool.false_eq_true, if_false] at hv
      rcases List.mem_cons.mp hv with rfl | h1
      · simpa using hc
      · intro hin
        exact (ih _ v h1) (List.mem_cons_of_mem _ hin)

theorem dedupGo_nodup : ∀ (l : List Url) (seen : List (List Char)),
    ((dedupGo seen l).map (fun u => normValue u.value)).Nodup := by
  intro l
  induction l with
  | nil => intro seen; simp [dedupGo]
  | cons u rest ih =>
    intro seen
    rw [dedupGo]
    by_cases hc : seen.contains (normValue u.value) = true
    · simp only [hc, if_true]
      exact ih seen
    · simp only [hc, Bool.false_eq_true, if_false, List.map_cons, List.nodup_cons]
      refine ⟨?_, ih _⟩
      intro hmem
      rcases List.mem_map.mp hmem with ⟨w, hw, hval⟩
      exact (dedupGo_not_seen rest _ w hw) (hval ▸ List.mem_cons_self _ _)

theorem dedupGo_covers : ∀ (l : List Url) (seen : List (List Char)),
    ∀ u ∈ l, normValue u.value ∈ seen ∨
      ∃ v ∈ dedupGo seen l, normValue v.value = normValue u.value := by
  intro l
  induction l with
  | nil => intro seen u hu; simp at hu
  | cons w rest ih =>
    intro seen u hu
    rw [dedupGo]
    by_cases hc : seen.contains (normValue w.value) = true
    · simp only [hc, if_true]
      rcases List.mem_cons.mp hu with heq | h1
      · exact Or.inl (by rw [heq]; simpa using hc)
      · exact ih seen u h1
    · simp only [hc, Bool.false_eq_true, if_false]
      rcases List.mem_cons.mp hu with heq | h1
      · exact Or.inr ⟨w, List.mem_cons_self _ _, by rw [heq]⟩
      · rcases ih (normValue w.value :: seen) u h1 with h2 | ⟨v, hv, hveq⟩
        · rcases List.mem_cons.mp h2 with h3 | h3
          · exact Or.inr ⟨w, List.mem_cons_self _ _, h3.symm⟩
          · exact Or.inl h3
        · exact Or.inr ⟨v, List.mem_cons_of_mem _ hv, hveq⟩

theorem dedupGo_first : ∀ (l : List Url) (seen : List (List Char)),
    ∀ v ∈ dedupGo seen l,
      l.find? (fun w => normValue w.value == normValue v.value) = some v := by
  intro l
  induction l with
  | nil => intro seen v hv; simp [dedupGo] at hv
  | cons u rest ih =>
    intro seen v hv
    rw [dedupGo] at hv
    by_cases hc : seen.contains (normValue u.value) = true
    · simp only [hc, if_true] at hv
      have hne : normValue u.value ≠ normValue v.value := by
        intro he
        exact (dedupGo_not_seen rest seen v hv) (he ▸ (by simpa using hc))
      rw [List.find?_cons_of_neg _ (by simpa using hne)]
      exact ih seen v hv
    · simp only [hc, Bool.false_eq_true, if_false] at hv
      rcases List.mem_cons.mp hv with rfl | h1
      · rw [List.find?_cons_of_pos _ (by simp)]
      · have hne : normValue u.value ≠ normValue v.value := by
          intro he
          exact (dedupGo_not_seen rest _ v h1) (he ▸ List.mem_cons_self _ _)
        rw [List.find?_cons_of_neg _ (by simpa using hne)]
        exact ih _ v h1

theorem dedupGo_of_nodup : ∀ (l : List Url) (seen : List (List Char)),
    ((l.map (fun u => normValue u.value)).Nodup) →
    (∀ u ∈ l, normValue u.value ∉ seen) →
    dedupGo seen l = l := by
  intro l
  induction l with
  | nil => intro seen _ _; rfl
  | cons u rest ih =>
    intro seen hnd hns
    rw [dedupGo]
    have hc : seen.contains (normValue u.value) = false := by
      simpa using hns u (List.mem_cons_self _ _)
    simp only [hc, Bool.false_eq_true, if_false]
    congr 1
    have hnd2 : (∀ x ∈ rest, ¬(normValue x.value = normValue u.value)) ∧
        (rest.map (fun w => normValue w.value)).Nodup := by simpa using hnd
    refine ih _ hnd2.2 ?_
    intro w hw hin
    rcases List.mem_cons.mp hin with h2 | h2
    · exact hnd2.1 w hw h2
    · exact hns w (List.mem_cons_of_mem _ hw) h2


theorem mapProtocolToType_mem (p : String) :
    mapProtocolToType p ≠ UrlProtocol.unknown ↔ p ∈ SUPPORTED_PROTOCOLS := by
  unfold mapProtocolToType SUPPORTED_PROTOCOLS
  by_cases h1 : p == ("http:") <;> by_cases h2 : p == ("https:") <;>
    by_cases h3 : p == ("ftp:") <;> by_cases h4 : p == ("file:") <;>
      by_cases h5 : p == ("mailto:") <;> by_cases h6 : p == ("tel:") <;>
        simp_all

/-! ## The claims -/

/-- C1: for every document string whose length is at most the
10,000,000-character ceiling and every format tag, the dispatcher always
returns an ExtractionResult (the model is a total function), and any
exception raised by the selected scanner is converted into exactly one
recorded recoverable parse error carrying the exception's message, with no
tokens and success false — the exception does not propagate. -/
theorem c1_extract_converts_scanner_exception
    (scan : String → Except String (List Url))
    (content languageId : String) (e : String)
    (hsize : content.length ≤ MAX_CONTENT_SIZE)
    (hscan : scan content = Except.error e) :
    extractUrlsWith scan content languageId false =
      { success := false, urls := [],
        errors := [createParseError e],
        fileType := determineFileType languageId } := by
  unfold extractUrlsWith extractUrlsByFileTypeW
  rw [hscan]
  simp [Nat.not_lt.mpr hsize, createSuccessResult]

/-- Witness for C1: a concrete throwing scanner on a one-character markdown
document. -/
theorem c1_extract_witness :
    extractUrlsWith (fun _ => Except.error ("boom")) ("x") ("markdown") false =
      { success := false, urls := [],
        errors := [createParseError ("boom")],
        fileType := determineFileType ("markdown") } :=
  c1_extract_converts_scanner_exception _ ("x") ("markdown") ("boom")
    (by decide) rfl

/-- C2: when the scanner yields more than 50,000 tokens, the dispatcher
returns exactly the first 50,000 tokens in scan order, exactly one
recoverable truncate parse error stating the original count, and success
true; when the scan yields at most 50,000 tokens no error is attached; in
every case at most 50,000 tokens are returned. -/
theorem c2_truncation_governance
    (scan : String → Except String (List Url))
    (content languageId : String) (urls : List Url)
    (hsize : content.length ≤ MAX_CONTENT_SIZE)
    (hscan : scan content = Except.ok urls) :
    (MAX_URL_COUNT < urls.length →
      (extractUrlsWith scan content languageId false).urls = urls.take MAX_URL_COUNT ∧
      (extractUrlsWith scan content languageId false).urls.length = MAX_URL_COUNT ∧
      (extractUrlsWith scan content languageId false).errors =
        [⟨("parsing"), .warning, truncMessage urls.length, true, .truncate⟩] ∧
      (extractUrlsWith scan content languageId false).success = true) ∧
    (urls.length ≤ MAX_URL_COUNT →
      (extractUrlsWith scan content languageId false).urls = urls ∧
      (extractUrlsWith scan content languageId false).errors = [] ∧
      (extractUrlsWith scan content languageId false).success = true) ∧
    (extractUrlsWith scan content languageId false).urls.length ≤ MAX_URL_COUNT := by
  unfold extractUrlsWith extractUrlsByFileTypeW
  rw [hscan]
  simp only [Nat.not_lt.mpr hsize, if_false, if_true, Bool.false_eq_true, ite_false]
  constructor
  · intro h
    simp [h, createTruncatedResult, List.length_take, Nat.min_le_left, Nat.le_of_lt h,
      Nat.min_eq_left (Nat.le_of_lt h)]
  constructor
  · intro h
    simp [Nat.not_lt.mpr h, createSuccessResult]
  · by_cases h : MAX_URL_COUNT < urls.length
    · simp [h, createTruncatedResult, List.length_take]
    · simp [h, createSuccessResult, Nat.not_lt.mp h]

/-- Witness for C2: a scanner returning 50,001 copies of a concrete token
over the empty document. -/
theorem c2_truncation_witness :
    (extractUrlsWith (fun _ => Except.ok (List.replicate 50001 wUrl)) ("")
      ("yaml") false).urls.length ≤ MAX_URL_COUNT :=
  (c2_truncation_governance _ ("") ("yaml") _ (by decide) rfl).2.2

/-- C3: for content strictly longer than the 10,000,000-character ceiling
the dispatcher returns an unsuccessful result with zero tokens and exactly
one recoverable parse error stating the content size, and the result does
not depend on the scanner (no scanner runs); at exactly the ceiling the
size-exceeded error is not triggered. -/
theorem c3_size_ceiling_guard
    (scan scan2 : String → Except String (List Url))
    (content languageId : String) :
    (MAX_CONTENT_SIZE < content.length →
      extractUrlsWith scan content languageId false =
        { success := false, urls := [],
          errors := [⟨("parsing"), .warning, sizeErrorMessage content.length,
            true, .truncate⟩],
          fileType := .unknown } ∧
      extractUrlsWith scan2 content languageId false =
        extractUrlsWith scan content languageId false) ∧
    (content.length = MAX_CONTENT_SIZE →
      ∀ urls : List Url, scan content = Except.ok urls →
        urls.length ≤ MAX_URL_COUNT →
        (extractUrlsWith scan content languageId false).success = true ∧
        (extractUrlsWith scan content languageId false).errors = []) := by
  constructor
  · intro h
    constructor
    · simp [extractUrlsWith, h, createErrorResult]
    · simp [extractUrlsWith, h]
  · intro h urls hscan hle
    unfold extractUrlsWith extractUrlsByFileTypeW
    rw [hscan]
    simp [h, Nat.not_lt.mpr hle, createSuccessResult]

/-- Counterexample for C4 as stated: one execution of the YAML scanner
emits the same literal value twice. -/
theorem c4_yaml_duplicate_counterexample :
    (extractFromYaml ("https://a.com https://a.com")).map (fun u => u.value)
      = [("https://a.com"), ("https://a.com")] ∧
    ¬ ((extractFromYaml ("https://a.com https://a.com")).map
        (fun u => u.value)).Nodup := by
  exact ⟨by decide, by decide⟩

/-- C4 (amended): within a single execution of the Markdown or HTML
scanner no value is emitted twice (the per-scan seen-set); the
line-oriented scanners such as YAML do not de-duplicate. -/
theorem c4_seen_set_dedupe_amended (content : String) :
    ((extractFromMarkdown content).map (fun u => u.value)).Nodup ∧
    ((extractFromHtml content).map (fun u => u.value)).Nodup :=
  ⟨extractFromMarkdown_nodup content, extractFromHtml_nodup content⟩

/-- Counterexample for C5 as stated: the YAML scanner labels a token whose
value begins with the insecure web prefix with the https protocol, while
the classifier classifies that same value as http. -/
theorem c5_yaml_http_protocol_counterexample :
    (extractFromYaml ("http://a.com")).map (fun u => (u.value, u.protocol))
      = [(("http://a.com"), UrlProtocol.https)] ∧
    detectUrlProtocol ("http://a.com") = UrlProtocol.http := by
  exact ⟨by decide, by decide⟩

/-- C5 (amended): every token of the Markdown and HTML scanners carries
the classifier's classification of its value and a non-empty value; every
YAML-scanner token carries a non-empty value (its protocol is the
pattern's fixed label, not the classifier's). -/
theorem c5_token_classification_amended (content : String) :
    ((extractFromMarkdown content).all (fun u =>
      decide (u.protocol = detectUrlProtocol u.value) && !(u.value == ("")))) = true ∧
    ((extractFromHtml content).all (fun u =>
      decide (u.protocol = detectUrlProtocol u.value) && !(u.value == ("")))) = true ∧
    ((extractFromYaml content).all (fun u => !(u.value == ("")))) = true := by
  refine ⟨?_, ?_, ?_⟩
  · rw [List.all_eq_true]
    intro u hu
    have h := extractFromMarkdown_prot content u hu
    simp [h.1, h.2]
  · rw [List.all_eq_true]
    intro u hu
    have h := extractFromHtml_prot content u hu
    simp [h.1, h.2]
  · rw [List.all_eq_true]
    intro u hu
    have h := extractFromYaml_values content u hu
    simp [h]

/-- Counterexample for C6 as stated: a line failure in the Markdown
scanner is logged as a console warning and the next line is still
processed, but no ParseError is recorded anywhere — the dispatcher result
for that scan has an empty error list and success true, where the claim
demands at least one recorded skip ParseError. -/
theorem c6_no_parse_error_counterexample :
    (extractFromMarkdownT (fun i => i == 0)
      (strOf (("x").data ++ [Char.ofNat 10] ++ ("https://a.com").data))).2
      = [("[URLs-LE] Regex error on line 1:")] ∧
    ((extractFromMarkdownT (fun i => i == 0)
      (strOf (("x").data ++ [Char.ofNat 10] ++ ("https://a.com").data))).1).map
        (fun u => u.value) = [("https://a.com")] ∧
    (extractUrlsWith
      (fun _ => Except.ok (extractFromMarkdownT (fun i => i == 0)
        (strOf (("x").data ++ [Char.ofNat 10] ++ ("https://a.com").data))).1)
      (strOf (("x").data ++ [Char.ofNat 10] ++ ("https://a.com").data))
      ("markdown") false).errors = [] ∧
    (extractUrlsWith
      (fun _ => Except.ok (extractFromMarkdownT (fun i => i == 0)
        (strOf (("x").data ++ [Char.ofNat 10] ++ ("https://a.com").data))).1)
      (strOf (("x").data ++ [Char.ofNat 10] ++ ("https://a.com").data))
      ("markdown") false).success = true := by
  exact ⟨by decide, by decide, by decide, by decide⟩

/-- C6 (amended): a per-line failure is caught at the line boundary and
logged as one console warning naming the line, processing continues (the
log lists exactly the throwing processed lines, in order), a failure-free
scan logs nothing — and per-line failures record no ParseError (the
concrete dispatcher run below carries an empty error list). -/
theorem c6_line_failure_logged_amended :
    (∀ (throws : Nat → Bool) (content : String),
      (extractFromMarkdownT throws content).2 =
        ((mdProcessedLines content).filter throws).map (fun i => mdWarnMsg (i + 1))) ∧
    (∀ content : String, (extractFromMarkdownT (fun _ => false) content).2 = []) ∧
    (extractUrlsWith
      (fun _ => Except.ok (extractFromMarkdownT (fun i => i == 0)
        (strOf (("y").data ++ [Char.ofNat 10] ++ ("https://b.com").data))).1)
      (strOf (("y").data ++ [Char.ofNat 10] ++ ("https://b.com").data))
      ("markdown") false).errors = [] := by
  refine ⟨?_, ?_, by decide⟩
  · intro throws content
    show (mdScan throws content).log = _
    unfold mdScan mdProcessedLines
    rw [mdFold_log]
    rfl
  · intro content
    show (mdScan (fun _ => false) content).log = _
    unfold mdScan
    rw [mdFold_log]
    simp

/-- Counterexample for C7 as stated: the Markdown scanner does not
suppress HTML comments — a URL inside a comment on a single line is
emitted. -/
theorem c7_markdown_comment_counterexample :
    (extractFromMarkdown ("<!-- https://hidden.com -->")).map (fun u => u.value)
      = [("https://hidden.com")] := by
  decide

/-- C7 (amended): the Markdown scanner suppresses fenced code blocks
across lines and inline code spans within a line; the HTML scanner
suppresses comment spans only within a single line — an unclosed comment
does not carry over to the next line, and the Markdown scanner does not
suppress comments at all. -/
theorem c7_suppressed_regions_amended :
    extractFromMarkdown (strOf (("```").data ++ [Char.ofNat 10] ++
      ("https://example.com").data ++ [Char.ofNat 10] ++ ("```").data)) = [] ∧
    (extractFromMarkdown (strOf ([Char.ofNat 96] ++ ("https://code.com").data ++
      [Char.ofNat 96] ++ (" https://text.com").data))).map (fun u => u.value)
      = [("https://text.com")] ∧
    (extractFromHtml
      ("<!-- https://hidden.com --><a href=\"https://seen.com\">x</a>")).map
      (fun u => u.value) = [("https://seen.com")] ∧
    (extractFromHtml (strOf (("<!--").data ++ [Char.ofNat 10] ++
      ("https://leak.com").data ++ [Char.ofNat 10] ++ ("-->").data))).map
      (fun u => u.value) = [("https://leak.com")] := by
  exact ⟨by decide, by decide, by decide, by decide⟩

/-- Counterexample for C8 as stated: the string consisting of the insecure
web prefix alone begins with that literal prefix yet is classified as
unrecognized (the URL parser rejects an empty host), while a candidate
with a scheme but no slashes begins with none of the six prefixes yet is
classified as web. -/
theorem c8_prefix_iff_counterexample :
    ("http://").data.isPrefixOf ("http://").data = true ∧
    detectUrlProtocol ("http://") = UrlProtocol.unknown ∧
    detectUrlProtocol ("http:a.com") = UrlProtocol.http ∧
    ((["https://", "http://", "ftp://", "file://", "mailto:", "tel:"] :
      List String).all (fun p => !(p.data.isPrefixOf ("http:a.com").data))) = true := by
  exact ⟨by decide, by decide, by decide, by decide⟩

/-- C8 (amended): the classifier is total and returns a recognized scheme
exactly when the platform URL parse succeeds with one of the six supported
schemes; javascript:x is unrecognized, https://a.com is secure web with
host a.com, and recognition is case-insensitive. -/
theorem c8_classifier_amended :
    (∀ s : String, detectUrlProtocol s ≠ UrlProtocol.unknown ↔
      ∃ u, parseUrlM s = some u ∧ u.protocol ∈ SUPPORTED_PROTOCOLS) ∧
    detectUrlProtocol ("javascript:x") = UrlProtocol.unknown ∧
    detectUrlProtocol ("https://a.com") = UrlProtocol.https ∧
    getDomainFromUrl ("https://a.com") = some ("a.com") ∧
    detectUrlProtocol ("HTTPS://A.COM") = UrlProtocol.https := by
  refine ⟨?_, by decide, by decide, by decide, by decide⟩
  intro s
  unfold detectUrlProtocol
  cases h : parseUrlM s with
  | none => simp
  | some u => simp [mapProtocolToType_mem u.protocol]

/-- C9: deduplication keeps exactly the first occurrence of each value
under case-insensitive, whitespace-trimmed equality, preserves the
original relative order of survivors (a sublist), yields pairwise-distinct
normalized values, covers every input value, and is idempotent. -/
theorem c9_deduplicate_first_occurrence_idempotent (urls : List Url) :
    deduplicateUrls (deduplicateUrls urls) = deduplicateUrls urls ∧
    (deduplicateUrls urls).Sublist urls ∧
    ((deduplicateUrls urls).map (fun u => normValue u.value)).Nodup ∧
    (∀ u ∈ urls, ∃ v ∈ deduplicateUrls urls,
      normValue v.value = normValue u.value) ∧
    (∀ v ∈ deduplicateUrls urls,
      urls.find? (fun w => normValue w.value == normValue v.value) = some v) := by
  refine ⟨?_, dedupGo_sublist urls [], dedupGo_nodup urls [], ?_,
    dedupGo_first urls []⟩
  · exact dedupGo_of_nodup _ [] (dedupGo_nodup urls []) (fun v hv => by simp)
  · intro u hu
    rcases dedupGo_covers urls [] u hu with h | h
    · simp at h
    · exact h

/-- C10: every sort mode of sortUrls is idempotent under re-sort (the
comparators are transitive and total, and the modelled sort is the stable
sort the ECMAScript specification prescribes), and sort-by-length yields
non-decreasing value lengths with ties broken by value ascending. -/
theorem c10_sort_total_idempotent (urls : List Url) (m : SortBy) :
    sortUrls (sortUrls urls m) m = sortUrls urls m ∧
    (sortUrls urls SortBy.length).Pairwise (fun a b =>
      a.value.length < b.value.length ∨
      (a.value.length = b.value.length ∧
        ordIsLe (charListCmp a.value.data b.value.data) = true)) := by
  constructor
  · exact jsSort_idem (sortLeOf m) (sortLe_trans m) (sortLe_total m) urls
  · have := jsSort_pairwise (sortLeOf SortBy.length)
      (sortLe_trans SortBy.length) (sortLe_total SortBy.length) urls
    exact this.imp (fun h => (lengthLe_iff _ _).mp h)

end UrlsLe
